import Mathlib

/-
Verification of the project-file patcher (src/macos/fix_project.py).

The script reads `Runner.xcodeproj/project.pbxproj`, replaces the first
`/* Begin PBXShellScriptBuildPhase section */ ... /* End ... */` span found
by `re.search(..., re.DOTALL)` with a two-marker stub via `str.replace`,
removes lines matching two fixed regular expressions via `re.sub`, copies the
original on-disk file to a `.backup` sibling, and overwrites the original
path with the transformed buffer.

Strings are embedded as `List Char`.  `re.search` for the section pattern,
`str.replace`, and the two `re.sub` calls are embedded as executable
left-to-right scanners (`splitOnFirst`, `scanSub`) whose match functions
(`tryMatch1`, `tryMatch2`) mirror the concrete regular expressions; since the
character classes of both patterns exclude the characters that follow them,
the regex backtracking is deterministic and the scanners are exact models.
-/

set_option maxRecDepth 20000

namespace FixProject

/-- Path of the Xcode project descriptor edited by the script
(`project_file` in the source). -/
def projectPath : String := "Runner.xcodeproj/project.pbxproj"

/-- Path of the backup copy (`project_file + '.backup'`). -/
def backupPath : String := projectPath ++ ".backup"

/-- The begin marker of the shell-script section (literal prefix of the
`re.search` pattern on line 17 of the script). -/
def beginL : List Char := "/* Begin PBXShellScriptBuildPhase section */".toList

/-- The end marker of the shell-script section (literal suffix of the
`re.search` pattern on line 17 of the script). -/
def endL : List Char := "/* End PBXShellScriptBuildPhase section */".toList

/-- `new_section`, the stub substituted for the whole matched span
(line 23 of the script). -/
def stubL : List Char :=
  "/* Begin PBXShellScriptBuildPhase section */\n\t\t/* End PBXShellScriptBuildPhase section */".toList

/-- Four literal tab characters, the indentation required by both `re.sub`
patterns (lines 30 and 33 of the script). -/
def tabs4 : List Char := "\t\t\t\t".toList

/-- Literal part of the build-phase reference pattern on line 30, following
the `[A-F0-9]+` identifier. -/
def lit1 : List Char := " /* PBXShellScriptBuildPhase */".toList

/-- The hardcoded identifier of the target-dependency pattern on line 33. -/
def token24 : List Char := "33CC111E2044C6BF0003C045".toList

/-- Literal prefix of the line-33 pattern: four tabs then the identifier. -/
def pat2pre : List Char := tabs4 ++ token24

/-- Split `s` at the first occurrence of `pat`: returns the part before the
occurrence and the part after it.  Models the leftmost-match search of both
`re.search` (for the literal begin/end markers) and `str.find`. -/
def splitOnFirst (pat : List Char) : List Char → Option (List Char × List Char)
  | [] => if pat.isPrefixOf ([] : List Char) then some ([], []) else none
  | c :: t =>
    if pat.isPrefixOf (c :: t) then some ([], List.drop pat.length (c :: t))
    else
      match splitOnFirst pat t with
      | some (a, b) => some (c :: a, b)
      | none => none

/-- The span matched by
`re.search(r'/\* Begin ... \*/.*?/\* End ... \*/', content, re.DOTALL)`:
the leftmost match starts at the first occurrence of the begin marker and,
because `.*?` is non-greedy, ends at the first following occurrence of the
end marker.  Returns `match.group(0)` when the search succeeds. -/
def findSection (s : List Char) : Option (List Char) :=
  match splitOnFirst beginL s with
  | none => none
  | some (_, afterB) =>
    match splitOnFirst endL afterB with
    | none => none
    | some (mid, _) => some (beginL ++ mid ++ endL)

/-- Fuel-indexed left-to-right scanner: at each position, if `f` matches a
non-empty segment (returning its length) the segment is replaced by `rep` and
scanning resumes after it, otherwise one character is kept.  This is the
shared semantics of Python's `str.replace` and of `re.sub(pat, rep, s)` for
the deterministic patterns used here. -/
def scanSub (f : List Char → Option Nat) (rep : List Char) : Nat → List Char → List Char
  | 0, s => s
  | _ + 1, [] => []
  | n + 1, c :: t =>
    match f (c :: t) with
    | some k => rep ++ scanSub f rep n (List.drop (k - 1) t)
    | none => c :: scanSub f rep n t

/-- `scanSub` with enough fuel to process the whole input. -/
def scanSubF (f : List Char → Option Nat) (rep s : List Char) : List Char :=
  scanSub f rep s.length s

/-- Match function of `str.replace(pat, rep)`: a match at the current
position is exactly an occurrence of `pat`. -/
def replPat (pat : List Char) : List Char → Option Nat :=
  fun t => if pat.isPrefixOf t then some pat.length else none

/-- Python's `s.replace(pat, rep)`: replace every non-overlapping occurrence
of `pat`, scanning left to right. -/
def replaceAllF (pat rep s : List Char) : List Char :=
  scanSubF (replPat pat) rep s

/-- Character class `[A-F0-9]` of the line-30 pattern. -/
def isHexUp (c : Char) : Bool :=
  ('A' ≤ c && c ≤ 'F') || ('0' ≤ c && c ≤ '9')

/-- Length of the maximal leading run of `[A-F0-9]` characters (the greedy
`[A-F0-9]+`; the following literal starts with a space, which is outside the
class, so greedy matching with backtracking takes exactly this run). -/
def takeHexLen : List Char → Nat
  | [] => 0
  | c :: t => if isHexUp c then takeHexLen t + 1 else 0

/-- Match function of the line-30 pattern
`r'\t\t\t\t[A-F0-9]+ /\* PBXShellScriptBuildPhase \*/,?\n'` at the current
position: four tabs, a non-empty uppercase-hex run, the literal comment, an
optional comma, then a newline.  Returns the length of the match. -/
def tryMatch1 (s : List Char) : Option Nat :=
  if tabs4.isPrefixOf s then
    let r := List.drop 4 s
    let k := takeHexLen r
    if k = 0 then none
    else
      let r2 := List.drop k r
      if lit1.isPrefixOf r2 then
        match List.drop lit1.length r2 with
        | ',' :: '\n' :: _ => some (4 + k + lit1.length + 2)
        | '\n' :: _ => some (4 + k + lit1.length + 1)
        | _ => none
      else none
  else none

/-- Distance to the first newline: `.*?\n` without `re.DOTALL` consumes the
shortest newline-free run followed by the newline. -/
def distToNewline : List Char → Option Nat
  | [] => none
  | c :: t => if c = '\n' then some 0 else Option.map (· + 1) (distToNewline t)

/-- Match function of the line-33 pattern
`r'\t\t\t\t33CC111E2044C6BF0003C045.*?\n'` at the current position: four
tabs, the hardcoded identifier, then everything up to and including the first
newline. -/
def tryMatch2 (s : List Char) : Option Nat :=
  if pat2pre.isPrefixOf s then
    match distToNewline (List.drop pat2pre.length s) with
    | some d => some (pat2pre.length + d + 1)
    | none => none
  else none

/-- The section-replacement step (lines 17-27 of the script): if the section
pattern matches, every occurrence of the matched span is replaced by the
stub (`content.replace(section, new_section)`); otherwise the content is
left unchanged (the script only prints a warning). -/
def sectionStep (s : List Char) : List Char :=
  match findSection s with
  | some sec => replaceAllF sec stubL s
  | none => s

/-- The first `re.sub` (line 30): remove build-phase reference lines. -/
def reSub1F (s : List Char) : List Char := scanSubF tryMatch1 [] s

/-- The second `re.sub` (line 33): remove the hardcoded target-dependency
lines. -/
def reSub2F (s : List Char) : List Char := scanSubF tryMatch2 [] s

/-- The whole in-memory transformation applied to the file content, in the
order of the script: section replacement, then the two substitutions. -/
def transform (s : List Char) : List Char :=
  reSub2F (reSub1F (sectionStep s))

/-- A filesystem is a partial map from paths to file contents. -/
def FS : Type := String → Option (List Char)

/-- Overwrite (or create) the file at path `p` with content `c`. -/
def writeFS (fs : FS) (p : String) (c : List Char) : FS :=
  fun q => if q = p then some c else fs q

/-- `shutil.copy src dst`: read the on-disk content of `src` and write it to
`dst`; fails when `src` does not exist. -/
def copyFS (fs : FS) (src dst : String) : Option FS :=
  match fs src with
  | none => none
  | some c => some (writeFS fs dst c)

/-- One run of the script as a filesystem transformer, in source order:
read the project file (fatal if missing), transform the buffer in memory,
copy the original on-disk file to the backup path, then overwrite the
project file with the transformed buffer. -/
def runScript (fs : FS) : Option FS :=
  match fs projectPath with
  | none => none
  | some content =>
    match copyFS fs projectPath backupPath with
    | none => none
    | some fs1 => some (writeFS fs1 projectPath (transform content))

/-- `occursAt pat s i` holds when `pat` occurs in `s` starting at index `i`. -/
def occursAt (pat s : List Char) (i : Nat) : Bool :=
  pat.isPrefixOf (List.drop i s)

/-- A concrete one-file filesystem holding only the project file. -/
def fsExample : FS :=
  fun p => if p = projectPath then some ('a' :: 'b' :: []) else none

/-- Body of the one-entry section of the example in the specification. -/
def specC2Mid : List Char :=
  "\n\t\t1234ABCD /* Flutter Assemble */ = \x7b...\x7d;\n".toList

/-- The example input of the specification: a one-entry
PBXShellScriptBuildPhase section. -/
def specC2Input : List Char :=
  "/* Begin PBXShellScriptBuildPhase section */\n\t\t1234ABCD /* Flutter Assemble */ = \x7b...\x7d;\n/* End PBXShellScriptBuildPhase section */".toList

/-- A line that begins with the bare hardcoded identifier, without the
four-tab indentation required by the line-33 pattern. -/
def c3cex : List Char := "33CC111E2044C6BF0003C045 foo\nbar\n".toList

/-- A space-indented hex-identifier reference line (whitespace indentation
that is not four tabs). -/
def c4cex : List Char := "  AB /* PBXShellScriptBuildPhase */\n".toList

/-- A section whose body is the single character `"\n"`: non-empty, but
shorter than the three characters inserted by the stub. -/
def c6cex : List Char := beginL ++ ('\n' :: endL)

/-- A body used by the C6 witness, longer than three characters. -/
def c6mid : List Char := "\nABCD\n".toList

/-- A minimal marker span with body `"x"`. -/
def c7span : List Char := beginL ++ ('x' :: endL)

/-- A one-entry section input for the C8 witness. -/
def c8ex : List Char := beginL ++ ('y' :: endL)

/-- Removing the inner reference line splices the outer text into a new
occurrence of the line-30 pattern, which a second pass would also remove. -/
def c9cex : List Char :=
  "\t\t\t\tAB\t\t\t\tCD /* PBXShellScriptBuildPhase */\n /* PBXShellScriptBuildPhase */\n".toList

/-- `isPrefixOf` agrees with the existence of a list decomposition. -/
theorem ipo_iff (p t : List Char) : p.isPrefixOf t = true ↔ ∃ r, t = p ++ r := by
  induction p generalizing t with
  | nil =>
    constructor
    · intro _
      exact ⟨t, rfl⟩
    · intro _
      simp
  | cons a as ih =>
    cases t with
    | nil =>
      constructor
      · intro h
        simp at h
      · rintro ⟨r, hr⟩
        exact absurd hr (by simp)
    | cons b bs =>
      rw [List.isPrefixOf_cons₂]
      constructor
      · intro h'
        rcases Bool.and_eq_true _ _ |>.mp h' with ⟨h1, h2⟩
        obtain ⟨r, hr⟩ := (ih bs).mp h2
        exact ⟨r, by simp [beq_iff_eq.mp h1, hr]⟩
      · rintro ⟨r, hr⟩
        injection hr with h1 h2
        rw [h1]
        simp [ih]
        exact ⟨r, h2⟩

/-- A list is a prefix of itself followed by anything. -/
theorem ipo_self_append (p r : List Char) : p.isPrefixOf (p ++ r) = true :=
  (ipo_iff p (p ++ r)).mpr ⟨r, rfl⟩

/-- A prefix of a prefix: dropping the appended tail of the pattern. -/
theorem ipo_of_append {a b t : List Char} (h : (a ++ b).isPrefixOf t = true) :
    a.isPrefixOf t = true := by
  obtain ⟨r, hr⟩ := (ipo_iff _ _).mp h
  exact (ipo_iff _ _).mpr ⟨b ++ r, by simp [hr]⟩

/-- Whether a prefix test succeeds depends only on the first `p.length`
characters of the subject. -/
theorem ipo_append_of_le {p a : List Char} (x : List Char) (h : p.length ≤ a.length) :
    p.isPrefixOf (a ++ x) = p.isPrefixOf a := by
  induction p generalizing a with
  | nil => simp
  | cons c cs ih =>
    cases a with
    | nil => simp at h
    | cons d ds =>
      rw [List.cons_append, List.isPrefixOf_cons₂, List.isPrefixOf_cons₂,
        ih (a := ds) (by simpa using h)]

/-- A non-empty pattern is never a prefix of the empty list. -/
theorem ipo_nil_false {p : List Char} (h : p ≠ []) : p.isPrefixOf ([] : List Char) = false := by
  cases p with
  | nil => exact absurd rfl h
  | cons c cs => rfl

/-- An explicit decomposition yields an occurrence at the left part's length. -/
theorem occursAt_of_decomp (pat l r : List Char) :
    occursAt pat (l ++ pat ++ r) l.length = true := by
  unfold occursAt
  rw [List.append_assoc, List.drop_left]
  exact ipo_self_append pat r

/-- An occurrence of a non-empty pattern yields an explicit decomposition
whose left part is `take i s` and has length `i`. -/
theorem occursAt_decomp {pat s : List Char} {i : Nat} (hp : pat ≠ [])
    (h : occursAt pat s i = true) :
    ∃ r, s = List.take i s ++ pat ++ r ∧ (List.take i s).length = i := by
  unfold occursAt at h
  obtain ⟨r, hr⟩ := (ipo_iff _ _).mp h
  have hi : i ≤ s.length := by
    by_contra hgt
    have : List.drop i s = [] := List.drop_eq_nil_of_le (by omega)
    rw [this] at hr
    cases pat with
    | nil => exact hp rfl
    | cons c cs => exact absurd hr.symm (by simp)
  refine ⟨r, ?_, ?_⟩
  · conv_lhs => rw [← List.take_append_drop i s]
    rw [hr, List.append_assoc]
  · simp [hi]

/-- An occurrence of a non-empty pattern starts before the end of the list. -/
theorem occursAt_lt {pat s : List Char} {i : Nat} (hp : pat ≠ [])
    (h : occursAt pat s i = true) : i < s.length := by
  obtain ⟨r, hr, hl⟩ := occursAt_decomp hp h
  have := congrArg List.length hr
  simp at this
  cases pat with
  | nil => exact absurd rfl hp
  | cons c cs =>
    simp at this
    omega

/-- Soundness of `splitOnFirst`: a successful split is a decomposition at the
first occurrence of the pattern. -/
theorem splitOnFirst_sound {pat s a b : List Char} (hp : pat ≠ [])
    (h : splitOnFirst pat s = some (a, b)) :
    s = a ++ pat ++ b ∧ ∀ i, i < a.length → occursAt pat s i = false := by
  induction s generalizing a b with
  | nil => simp [splitOnFirst, ipo_nil_false hp] at h
  | cons c t ih =>
    by_cases hpre : pat.isPrefixOf (c :: t) = true
    · rw [splitOnFirst, if_pos hpre] at h
      injection h with h'
      injection h' with ha hb
      obtain ⟨r, hr⟩ := (ipo_iff _ _).mp hpre
      have hbr : List.drop pat.length (c :: t) = r := by
        rw [hr, List.drop_left]
      constructor
      · rw [← ha, ← hb, hbr]
        simpa using hr
      · intro i hi
        rw [← ha] at hi
        simp at hi
    · rw [splitOnFirst, if_neg hpre] at h
      cases hrec : splitOnFirst pat t with
      | none => rw [hrec] at h; simp at h
      | some ab =>
        obtain ⟨a', b'⟩ := ab
        rw [hrec] at h
        injection h with h'
        injection h' with ha hb
        obtain ⟨ht, hfirst⟩ := ih hrec
        constructor
        · rw [← ha, ← hb]
          simp [ht]
        · intro i hi
          rw [← ha] at hi
          cases i with
          | zero =>
            unfold occursAt
            simpa using (Bool.eq_false_iff.mpr hpre)
          | succ j =>
            have hj : j < a'.length := by simpa using hi
            have := hfirst j hj
            unfold occursAt at this ⊢
            simpa using this

/-- Completeness of `splitOnFirst`: it finds a decomposition whose left part
precedes every occurrence of the pattern. -/
theorem splitOnFirst_of_first {pat : List Char} (pre suf : List Char) (hp : pat ≠ [])
    (hfirst : ∀ i, i < pre.length → occursAt pat (pre ++ (pat ++ suf)) i = false) :
    splitOnFirst pat (pre ++ (pat ++ suf)) = some (pre, suf) := by
  induction pre with
  | nil =>
    cases hq : pat with
    | nil => exact absurd hq hp
    | cons p ps =>
      subst hq
      simp only [List.nil_append, List.cons_append]
      have hpre : (p :: ps).isPrefixOf (p :: (ps ++ suf)) = true := by
        rw [← List.cons_append]
        exact ipo_self_append _ _
      have hdrop : List.drop (p :: ps).length (p :: (ps ++ suf)) = suf := by
        rw [← List.cons_append, List.drop_left]
      rw [splitOnFirst, if_pos hpre, hdrop]
  | cons c pre' ih =>
    have h0 : pat.isPrefixOf (c :: (pre' ++ (pat ++ suf))) = false := by
      have := hfirst 0 (by simp)
      unfold occursAt at this
      simpa using this
    rw [List.cons_append, splitOnFirst, if_neg (by rw [h0]; exact Bool.false_ne_true)]
    rw [ih (fun i hi => by
      have := hfirst (i + 1) (by simpa using Nat.succ_lt_succ hi)
      unfold occursAt at this ⊢
      simpa using this)]

/-- `scanSub` does not depend on the fuel once it covers the input length. -/
theorem scanSub_fuel (f : List Char → Option Nat) (rep : List Char) :
    ∀ (n : Nat) (s : List Char) (m : Nat), s.length ≤ n → s.length ≤ m →
      scanSub f rep n s = scanSub f rep m s := by
  intro n
  induction n with
  | zero =>
    intro s m hn _
    have : s = [] := List.eq_nil_of_length_eq_zero (Nat.le_zero.mp hn)
    subst this
    cases m <;> rfl
  | succ n ih =>
    intro s m hn hm
    cases s with
    | nil => cases m <;> rfl
    | cons c t =>
      cases m with
      | zero => simp at hm
      | succ m' =>
        cases hf : f (c :: t) with
        | some k =>
          simp only [scanSub, hf]
          rw [ih (List.drop (k - 1) t) m'
            (by simp at hn ⊢; omega) (by simp at hm ⊢; omega)]
        | none =>
          simp only [scanSub, hf]
          rw [ih t m' (by simpa using hn) (by simpa using hm)]

/-- Unfolding `scanSubF` at a matching position. -/
theorem scanSubF_cons_some {f : List Char → Option Nat} {rep : List Char}
    {c : Char} {t : List Char} {k : Nat} (hf : f (c :: t) = some k) :
    scanSubF f rep (c :: t) = rep ++ scanSubF f rep (List.drop (k - 1) t) := by
  unfold scanSubF
  simp only [List.length_cons, scanSub, hf]
  rw [scanSub_fuel f rep t.length (List.drop (k - 1) t) (List.drop (k - 1) t).length
    (by simp) (Nat.le_refl _)]

/-- Unfolding `scanSubF` at a non-matching position. -/
theorem scanSubF_cons_none {f : List Char → Option Nat} {rep : List Char}
    {c : Char} {t : List Char} (hf : f (c :: t) = none) :
    scanSubF f rep (c :: t) = c :: scanSubF f rep t := by
  unfold scanSubF
  simp only [List.length_cons, scanSub, hf]

/-- The scanner copies verbatim a region where the match function fails. -/
theorem scanSub_skip {f : List Char → Option Nat} {rep : List Char}
    (pre rest : List Char)
    (h : ∀ i, i < pre.length → f (List.drop i (pre ++ rest)) = none) :
    scanSubF f rep (pre ++ rest) = pre ++ scanSubF f rep rest := by
  induction pre with
  | nil => simp
  | cons c pre' ih =>
    have h0 : f (c :: (pre' ++ rest)) = none := by
      have := h 0 (by simp)
      simpa using this
    rw [List.cons_append, scanSubF_cons_none h0,
      ih (fun i hi => by
        have := h (i + 1) (by simpa using Nat.succ_lt_succ hi)
        simpa using this)]
    simp

/-- The scanner consumes a full match at the head and substitutes `rep`. -/
theorem scanSubF_match {f : List Char → Option Nat} {rep : List Char}
    (L t : List Char) (hL : L ≠ []) (h : f (L ++ t) = some L.length) :
    scanSubF f rep (L ++ t) = rep ++ scanSubF f rep t := by
  cases L with
  | nil => exact absurd rfl hL
  | cons c L' =>
    rw [List.cons_append] at h ⊢
    rw [scanSubF_cons_some h]
    simp only [List.length_cons, Nat.add_sub_cancel]
    rw [List.drop_left]

/-- A scan that never matches copies the input verbatim. -/
theorem scanSub_noMatch {f : List Char → Option Nat} {rep : List Char}
    (s : List Char) (h : ∀ i, i < s.length → f (List.drop i s) = none) :
    scanSubF f rep s = s := by
  have h2 : scanSubF f rep ([] : List Char) = [] := rfl
  have h3 : scanSubF f rep (s ++ []) = s ++ scanSubF f rep [] :=
    scanSub_skip s [] (fun i hi => by have := h i hi; simpa using this)
  rw [h2] at h3
  simp only [List.append_nil] at h3
  exact h3

/-- Deleting substitutions never lengthen the text. -/
theorem scanSub_length (f : List Char → Option Nat) :
    ∀ (n : Nat) (s : List Char), (scanSub f [] n s).length ≤ s.length := by
  intro n
  induction n with
  | zero => intro s; exact Nat.le_refl _
  | succ n ih =>
    intro s
    cases s with
    | nil => simp [scanSub]
    | cons c t =>
      cases hf : f (c :: t) with
      | some k =>
        simp only [scanSub, hf, List.nil_append]
        calc (scanSub f [] n (List.drop (k - 1) t)).length
            ≤ (List.drop (k - 1) t).length := ih _
          _ ≤ (c :: t).length := by simp; omega
      | none =>
        simp only [scanSub, hf, List.length_cons]
        exact Nat.succ_le_succ (ih t)

/-- `scanSubF` with empty replacement never lengthens the text. -/
theorem scanSubF_length (f : List Char → Option Nat) (s : List Char) :
    (scanSubF f [] s).length ≤ s.length :=
  scanSub_length f s.length s

/-- The `str.replace` match function fails where the pattern does not occur. -/
theorem replPat_none {pat t : List Char} (h : pat.isPrefixOf t = false) :
    replPat pat t = none := by
  simp [replPat, h]

/-- `str.replace` replaces an occurrence preceded by occurrence-free text and
goes on scanning the remainder. -/
theorem replaceAll_first {pat rep : List Char} (pre suf : List Char) (hp : pat ≠ [])
    (hfirst : ∀ i, i < pre.length → occursAt pat (pre ++ (pat ++ suf)) i = false) :
    replaceAllF pat rep (pre ++ (pat ++ suf)) = pre ++ (rep ++ replaceAllF pat rep suf) := by
  unfold replaceAllF
  rw [scanSub_skip pre (pat ++ suf) (fun i hi => by
    apply replPat_none
    have := hfirst i hi
    unfold occursAt at this
    exact this)]
  rw [scanSubF_match pat suf hp (by simp [replPat, ipo_self_append])]

/-- `str.replace` leaves occurrence-free text unchanged. -/
theorem replaceAll_noOccur {pat rep : List Char} (s : List Char)
    (h : ∀ i, i < s.length → occursAt pat s i = false) :
    replaceAllF pat rep s = s := by
  unfold replaceAllF
  exact scanSub_noMatch s (fun i hi => by
    apply replPat_none
    have := h i hi
    unfold occursAt at this
    exact this)

/-- Bounded-input form of `replaceAllF pat pat s = s`. -/
theorem replaceAll_self_aux (pat : List Char) (hp : pat ≠ []) :
    ∀ (n : Nat) (s : List Char), s.length ≤ n → replaceAllF pat pat s = s := by
  intro n
  induction n with
  | zero =>
    intro s hn
    have : s = [] := List.eq_nil_of_length_eq_zero (Nat.le_zero.mp hn)
    subst this
    rfl
  | succ n ih =>
    intro s hn
    cases s with
    | nil => rfl
    | cons c t =>
      unfold replaceAllF
      by_cases hpre : pat.isPrefixOf (c :: t) = true
      · obtain ⟨r, hr⟩ := (ipo_iff _ _).mp hpre
        have hf : replPat pat (c :: t) = some pat.length := by simp [replPat, hpre]
        rw [scanSubF_cons_some hf]
        have hdrop : List.drop (pat.length - 1) t = r := by
          have : List.drop pat.length (c :: t) = r := by rw [hr, List.drop_left]
          cases hq : pat with
          | nil => exact absurd hq hp
          | cons p ps =>
            rw [hq] at this
            simpa using this
        rw [hdrop]
        have hrlen : r.length ≤ n := by
          have := congrArg List.length hr
          simp at this hn
          cases hq : pat with
          | nil => exact absurd hq hp
          | cons p ps =>
            rw [hq] at this
            simp at this
            omega
        have := ih r hrlen
        unfold replaceAllF at this
        rw [this, hr]
      · have hf : replPat pat (c :: t) = none :=
          replPat_none (Bool.eq_false_iff.mpr hpre)
        rw [scanSubF_cons_none hf]
        have := ih t (by simpa using hn)
        unfold replaceAllF at this
        rw [this]

/-- Replacing a pattern by itself is the identity. -/
theorem replaceAll_self (pat s : List Char) (hp : pat ≠ []) :
    replaceAllF pat pat s = s :=
  replaceAll_self_aux pat hp s.length s (Nat.le_refl _)

/-- An occurrence that fits inside the left part of an append is independent
of the right part. -/
theorem occursAt_append_left {p a : List Char} (x : List Char) {i : Nat}
    (h : i + p.length ≤ a.length) :
    occursAt p (a ++ x) i = occursAt p a i := by
  unfold occursAt
  rw [List.drop_append_of_le_length (by omega)]
  exact ipo_append_of_le x (by simp; omega)

/-- Head-character mismatch refutes a prefix test. -/
theorem ipo_cons_ne {a b : Char} (x y : List Char) (h : a ≠ b) :
    (a :: x).isPrefixOf (b :: y) = false := by
  rw [List.isPrefixOf_cons₂]
  simp [h]

/-- The begin marker is non-empty. -/
theorem beginL_ne : beginL ≠ [] := by decide

/-- The end marker is non-empty. -/
theorem endL_ne : endL ≠ [] := by decide

/-- The stub is non-empty. -/
theorem stubL_ne : stubL ≠ [] := by decide

/-- The stub is the begin marker, a newline, two tabs, and the end marker. -/
theorem stubL_decomp : stubL = beginL ++ ('\n' :: '\t' :: '\t' :: endL) := by decide

/-- The end marker starts with a slash. -/
theorem endL_head : endL = '/' :: "* End PBXShellScriptBuildPhase section */".toList := by decide

/-- When no section is found, the section step is the identity (the script
only prints a warning and goes on). -/
theorem sectionStep_none {s : List Char} (h : findSection s = none) :
    sectionStep s = s := by
  simp [sectionStep, h]

/-- When a section is found, the section step is a global replace of the
matched span. -/
theorem sectionStep_some {s sec : List Char} (h : findSection s = some sec) :
    sectionStep s = replaceAllF sec stubL s := by
  simp [sectionStep, h]

/-- `findSection` on a text decomposed at the first begin marker, with the
first end marker after it: the matched span is begin-marker, body, end-marker. -/
theorem findSection_eq (pre mid suf : List Char)
    (hB : ∀ i, i < pre.length →
      occursAt beginL (pre ++ (beginL ++ (mid ++ (endL ++ suf)))) i = false)
    (hE : ∀ j, j < mid.length → occursAt endL (mid ++ (endL ++ suf)) j = false) :
    findSection (pre ++ (beginL ++ (mid ++ (endL ++ suf)))) =
      some (beginL ++ mid ++ endL) := by
  have h1 : splitOnFirst beginL (pre ++ (beginL ++ (mid ++ (endL ++ suf)))) =
      some (pre, mid ++ (endL ++ suf)) :=
    splitOnFirst_of_first pre (mid ++ (endL ++ suf)) beginL_ne hB
  have h2 : splitOnFirst endL (mid ++ (endL ++ suf)) = some (mid, suf) :=
    splitOnFirst_of_first mid suf endL_ne hE
  simp only [findSection, h1, h2]

/-- The inverse direction: a successful `findSection` yields the canonical
decomposition together with the first-occurrence facts. -/
theorem findSection_decomp {s sec : List Char} (h : findSection s = some sec) :
    ∃ pre mid suf, s = pre ++ (beginL ++ (mid ++ (endL ++ suf))) ∧
      sec = beginL ++ mid ++ endL ∧
      (∀ i, i < pre.length → occursAt beginL s i = false) ∧
      (∀ j, j < mid.length → occursAt endL (mid ++ (endL ++ suf)) j = false) := by
  cases h1 : splitOnFirst beginL s with
  | none =>
    simp only [findSection, h1] at h
    exact absurd h (by simp)
  | some pab =>
    obtain ⟨pre, afterB⟩ := pab
    cases h2 : splitOnFirst endL afterB with
    | none =>
      simp only [findSection, h1, h2] at h
      exact absurd h (by simp)
    | some ms =>
      obtain ⟨mid, suf⟩ := ms
      simp only [findSection, h1, h2] at h
      injection h with hsec
      obtain ⟨hs1, hfb⟩ := splitOnFirst_sound beginL_ne h1
      obtain ⟨hs2, hfe⟩ := splitOnFirst_sound endL_ne h2
      refine ⟨pre, mid, suf, ?_, hsec.symm, hfb, ?_⟩
      · rw [hs1, hs2]
        simp [List.append_assoc]
      · intro j hj
        have := hfe j hj
        rw [hs2] at this
        simpa [List.append_assoc] using this

/-- The matched span is non-empty. -/
theorem span_ne (mid : List Char) : beginL ++ mid ++ endL ≠ [] := by
  intro hc
  have := congrArg List.length hc
  simp at this
  exact beginL_ne this.1

/-- The section step on a text decomposed at its first marker pair: the
prefix is kept, the span becomes the stub, and the global replace goes on
over the suffix. -/
theorem sectionStep_clean (pre mid suf : List Char)
    (hB : ∀ i, i < pre.length →
      occursAt beginL (pre ++ (beginL ++ (mid ++ (endL ++ suf)))) i = false)
    (hE : ∀ j, j < mid.length → occursAt endL (mid ++ (endL ++ suf)) j = false) :
    sectionStep (pre ++ (beginL ++ (mid ++ (endL ++ suf)))) =
      pre ++ (stubL ++ replaceAllF (beginL ++ mid ++ endL) stubL suf) := by
  have hfs := findSection_eq pre mid suf hB hE
  rw [sectionStep_some hfs]
  have hshape : pre ++ (beginL ++ (mid ++ (endL ++ suf))) =
      pre ++ ((beginL ++ mid ++ endL) ++ suf) := by
    simp [List.append_assoc]
  rw [hshape]
  apply replaceAll_first pre suf (span_ne mid)
  intro i hi
  apply Bool.eq_false_iff.mpr
  intro hocc
  have hbt : occursAt beginL (pre ++ ((beginL ++ mid ++ endL) ++ suf)) i = true := by
    unfold occursAt at hocc ⊢
    have hsec : beginL ++ (mid ++ endL) = beginL ++ mid ++ endL := by
      simp [List.append_assoc]
    rw [← hsec] at hocc
    exact ipo_of_append hocc
  have hb := hB i hi
  rw [hshape] at hb
  rw [hbt] at hb
  simp at hb

/-- The end marker does not begin at a character other than a slash. -/
theorem endL_not_at (c : Char) (z : List Char) (hc : c ≠ '/') :
    endL.isPrefixOf (c :: z) = false := by
  rw [endL_head]
  exact ipo_cons_ne _ _ (fun h => hc h.symm)

/-- Re-searching a stubbed text finds exactly the stub. -/
theorem findSection_stub (pre w : List Char)
    (hB : ∀ i, i < pre.length → occursAt beginL (pre ++ (stubL ++ w)) i = false) :
    findSection (pre ++ (stubL ++ w)) = some stubL := by
  have hshape : pre ++ (stubL ++ w) =
      pre ++ (beginL ++ ((['\n', '\t', '\t'] : List Char) ++ (endL ++ w))) := by
    rw [stubL_decomp]
    simp [List.append_assoc]
  rw [hshape] at hB ⊢
  have hE : ∀ j, j < (['\n', '\t', '\t'] : List Char).length →
      occursAt endL ((['\n', '\t', '\t'] : List Char) ++ (endL ++ w)) j = false := by
    intro j hj
    unfold occursAt
    simp only [List.length_cons, List.length_nil] at hj
    interval_cases j
    · simp only [List.cons_append, List.nil_append, List.drop_zero]
      exact endL_not_at _ _ (by decide)
    · simp only [List.cons_append, List.nil_append, List.drop_succ_cons, List.drop_zero]
      exact endL_not_at _ _ (by decide)
    · simp only [List.cons_append, List.nil_append, List.drop_succ_cons, List.drop_zero]
      exact endL_not_at _ _ (by decide)
  rw [findSection_eq pre ['\n', '\t', '\t'] w hB hE]
  congr 1

/-- A found section leads to a stubbed result whose own section search finds
exactly the stub. -/
theorem sectionStep_parts {s sec : List Char} (h : findSection s = some sec) :
    ∃ pre w, sectionStep s = pre ++ (stubL ++ w) ∧
      findSection (sectionStep s) = some stubL := by
  obtain ⟨pre, mid, suf, hs, hsec, hB, hE⟩ := findSection_decomp h
  have hB' : ∀ i, i < pre.length →
      occursAt beginL (pre ++ (beginL ++ (mid ++ (endL ++ suf)))) i = false := by
    intro i hi
    rw [← hs]
    exact hB i hi
  have hstep : sectionStep s =
      pre ++ (stubL ++ replaceAllF (beginL ++ mid ++ endL) stubL suf) := by
    rw [hs]
    exact sectionStep_clean pre mid suf hB' hE
  refine ⟨pre, _, hstep, ?_⟩
  rw [hstep]
  apply findSection_stub
  intro i hi
  have e1 : pre ++ (stubL ++ replaceAllF (beginL ++ mid ++ endL) stubL suf) =
      (pre ++ beginL) ++
        (('\n' :: '\t' :: '\t' :: endL) ++ replaceAllF (beginL ++ mid ++ endL) stubL suf) := by
    rw [stubL_decomp]
    simp [List.append_assoc]
  have e2 : s = (pre ++ beginL) ++ (mid ++ (endL ++ suf)) := by
    rw [hs]
    simp [List.append_assoc]
  rw [e1, occursAt_append_left _ (by simp; omega)]
  have hb' := hB i hi
  rw [e2, occursAt_append_left _ (by simp; omega)] at hb'
  exact hb'

/-- The section-replacement step is idempotent as a function on strings. -/
theorem sectionStep_sectionStep (s : List Char) :
    sectionStep (sectionStep s) = sectionStep s := by
  cases h : findSection s with
  | none => rw [sectionStep_none h, sectionStep_none h]
  | some sec =>
    obtain ⟨pre, w, hstep, hfs⟩ := sectionStep_parts h
    rw [sectionStep_some hfs]
    exact replaceAll_self stubL _ stubL_ne

/-- The greedy `[A-F0-9]+` run over a hex block followed by a non-hex
character takes exactly the block. -/
theorem takeHexLen_exact {hex : List Char} (d : Char) (r : List Char)
    (hall : ∀ c ∈ hex, isHexUp c = true) (hd : isHexUp d = false) :
    takeHexLen (hex ++ d :: r) = hex.length := by
  induction hex with
  | nil => simp [takeHexLen, hd]
  | cons c cs ih =>
    have hc : isHexUp c = true := hall c (by simp)
    simp [takeHexLen, hc, ih (fun x hx => hall x (by simp [hx]))]

/-- `.*?\n` over a newline-free block consumes exactly up to the newline. -/
theorem distToNewline_exact {m : List Char} (r : List Char)
    (hm : ∀ c ∈ m, c ≠ '\n') :
    distToNewline (m ++ '\n' :: r) = some m.length := by
  induction m with
  | nil => simp [distToNewline]
  | cons c cs ih =>
    have hc : c ≠ '\n' := hm c (by simp)
    simp [distToNewline, hc, ih (fun x hx => hm x (by simp [hx]))]

/-- `lit1` starts with a space, a non-hex character. -/
theorem lit1_head : lit1 = ' ' :: "/* PBXShellScriptBuildPhase */".toList := by decide

/-- The line-30 pattern matches a full reference line without comma. -/
theorem tryMatch1_exact_nocomma (hex t : List Char)
    (hne : hex ≠ []) (hall : ∀ c ∈ hex, isHexUp c = true) :
    tryMatch1 (tabs4 ++ (hex ++ (lit1 ++ ('\n' :: t)))) =
      some (4 + hex.length + lit1.length + 1) := by
  have h1 : tabs4.isPrefixOf (tabs4 ++ (hex ++ (lit1 ++ ('\n' :: t)))) = true :=
    ipo_self_append _ _
  have h2 : List.drop 4 (tabs4 ++ (hex ++ (lit1 ++ ('\n' :: t)))) =
      hex ++ (lit1 ++ ('\n' :: t)) :=
    List.drop_left' (by decide)
  have h3 : takeHexLen (hex ++ (lit1 ++ ('\n' :: t))) = hex.length := by
    rw [lit1_head, List.cons_append]
    exact takeHexLen_exact ' ' _ hall (by decide)
  have h4 : List.drop hex.length (hex ++ (lit1 ++ ('\n' :: t))) = lit1 ++ ('\n' :: t) :=
    List.drop_left _ _
  have h5 : lit1.isPrefixOf (lit1 ++ ('\n' :: t)) = true := ipo_self_append _ _
  have h6 : List.drop lit1.length (lit1 ++ ('\n' :: t)) = '\n' :: t :=
    List.drop_left _ _
  have hk : hex.length ≠ 0 := by
    intro hc
    exact hne (List.eq_nil_of_length_eq_zero hc)
  simp only [tryMatch1, h1, if_true, h2, h3, h4, h5, h6, hk, if_false]

/-- The line-30 pattern matches a full reference line with trailing comma. -/
theorem tryMatch1_exact_comma (hex t : List Char)
    (hne : hex ≠ []) (hall : ∀ c ∈ hex, isHexUp c = true) :
    tryMatch1 (tabs4 ++ (hex ++ (lit1 ++ (',' :: '\n' :: t)))) =
      some (4 + hex.length + lit1.length + 2) := by
  have h1 : tabs4.isPrefixOf (tabs4 ++ (hex ++ (lit1 ++ (',' :: '\n' :: t)))) = true :=
    ipo_self_append _ _
  have h2 : List.drop 4 (tabs4 ++ (hex ++ (lit1 ++ (',' :: '\n' :: t)))) =
      hex ++ (lit1 ++ (',' :: '\n' :: t)) :=
    List.drop_left' (by decide)
  have h3 : takeHexLen (hex ++ (lit1 ++ (',' :: '\n' :: t))) = hex.length := by
    rw [lit1_head, List.cons_append]
    exact takeHexLen_exact ' ' _ hall (by decide)
  have h4 : List.drop hex.length (hex ++ (lit1 ++ (',' :: '\n' :: t))) =
      lit1 ++ (',' :: '\n' :: t) :=
    List.drop_left _ _
  have h5 : lit1.isPrefixOf (lit1 ++ (',' :: '\n' :: t)) = true := ipo_self_append _ _
  have h6 : List.drop lit1.length (lit1 ++ (',' :: '\n' :: t)) = ',' :: '\n' :: t :=
    List.drop_left _ _
  have hk : hex.length ≠ 0 := by
    intro hc
    exact hne (List.eq_nil_of_length_eq_zero hc)
  simp only [tryMatch1, h1, if_true, h2, h3, h4, h5, h6, hk, if_false]

/-- The line-33 pattern matches four tabs, the identifier, the newline-free
rest of the line, and the terminating newline. -/
theorem tryMatch2_exact (m t : List Char) (hm : ∀ c ∈ m, c ≠ '\n') :
    tryMatch2 (pat2pre ++ (m ++ ('\n' :: t))) =
      some (pat2pre.length + m.length + 1) := by
  have h1 : pat2pre.isPrefixOf (pat2pre ++ (m ++ ('\n' :: t))) = true :=
    ipo_self_append _ _
  have h2 : List.drop pat2pre.length (pat2pre ++ (m ++ ('\n' :: t))) =
      m ++ ('\n' :: t) :=
    List.drop_left _ _
  have h3 : distToNewline (m ++ '\n' :: t) = some m.length := distToNewline_exact t hm
  simp only [tryMatch2, h1, if_true, h2, h3]

/-- `occursAt` transported along an equality of subjects. -/
theorem occursAt_of_eq {pat s l r : List Char} (hs : s = l ++ pat ++ r) {n : Nat}
    (hn : l.length = n) : occursAt pat s n = true := by
  rw [hs, ← hn]
  exact occursAt_of_decomp _ _ _

/-- If no begin-marker occurrence is followed by an end-marker occurrence,
the section search fails. -/
theorem findSection_none_of_no_pair (s : List Char)
    (h : ∀ i, i < s.length → ∀ j, j < s.length →
      ¬(occursAt beginL s i = true ∧ i + beginL.length ≤ j ∧ occursAt endL s j = true)) :
    findSection s = none := by
  cases h1 : splitOnFirst beginL s with
  | none => simp [findSection, h1]
  | some pab =>
    obtain ⟨pre, afterB⟩ := pab
    cases h2 : splitOnFirst endL afterB with
    | none => simp [findSection, h1, h2]
    | some ms =>
      obtain ⟨mid, suf⟩ := ms
      exfalso
      obtain ⟨hs1, _⟩ := splitOnFirst_sound beginL_ne h1
      obtain ⟨hs2, _⟩ := splitOnFirst_sound endL_ne h2
      have hoB : occursAt beginL s pre.length = true := occursAt_of_eq hs1 rfl
      have hoE : occursAt endL s (pre.length + beginL.length + mid.length) = true := by
        refine occursAt_of_eq (l := pre ++ beginL ++ mid) (r := suf) ?_ (by simp; omega)
        rw [hs1, hs2]
        simp [List.append_assoc]
      have hlen : s.length =
          pre.length + beginL.length + mid.length + endL.length + suf.length := by
        have e1 := congrArg List.length hs1
        have e2 := congrArg List.length hs2
        simp at e1 e2
        omega
      have hBpos : 0 < beginL.length := by decide
      have hEpos : 0 < endL.length := by decide
      exact h pre.length (by omega) (pre.length + beginL.length + mid.length) (by omega)
        ⟨hoB, by omega, hoE⟩

/-- The section step on a text containing exactly one marker span: prefix and
suffix are untouched and the span becomes the stub. -/
theorem sectionStep_unique (pre mid suf : List Char)
    (hB : ∀ i, i < pre.length →
      occursAt beginL (pre ++ (beginL ++ (mid ++ (endL ++ suf)))) i = false)
    (hE : ∀ j, j < mid.length → occursAt endL (mid ++ (endL ++ suf)) j = false)
    (hUniq : ∀ i, i < (pre ++ (beginL ++ (mid ++ (endL ++ suf)))).length →
      occursAt (beginL ++ mid ++ endL) (pre ++ (beginL ++ (mid ++ (endL ++ suf)))) i = true →
      i = pre.length) :
    sectionStep (pre ++ (beginL ++ (mid ++ (endL ++ suf)))) = pre ++ (stubL ++ suf) := by
  rw [sectionStep_clean pre mid suf hB hE]
  congr 2
  apply replaceAll_noOccur
  intro i hi
  apply Bool.eq_false_iff.mpr
  intro hocc
  obtain ⟨r, hr, htk⟩ := occursAt_decomp (span_ne mid) hocc
  have hr' : suf = List.take i suf ++ ((beginL ++ mid ++ endL) ++ r) := by
    conv_lhs => rw [hr]
    simp [List.append_assoc]
  have hocc2 : occursAt (beginL ++ mid ++ endL)
      (pre ++ (beginL ++ (mid ++ (endL ++ suf))))
      (pre.length + (beginL ++ mid ++ endL).length + i) = true := by
    refine occursAt_of_eq
      (l := pre ++ (beginL ++ mid ++ endL) ++ List.take i suf) (r := r) ?_
      (by simp [htk]; omega)
    conv_lhs => rw [hr']
    simp [List.append_assoc]
  have hslen : (pre ++ (beginL ++ (mid ++ (endL ++ suf)))).length =
      pre.length + (beginL ++ mid ++ endL).length + suf.length := by
    simp
    omega
  have hspan : 0 < (beginL ++ mid ++ endL).length := by
    have : 0 < beginL.length := by decide
    simp
    omega
  have := hUniq (pre.length + (beginL ++ mid ++ endL).length + i) (by omega) hocc2
  omega

/-- The backup path differs from the project path. -/
theorem backup_ne_project : backupPath ≠ projectPath := by decide

/-- C1: after the script runs to completion on an existing readable input
file, the backup file exists and its contents are byte-for-byte the pre-run
on-disk contents of the input file; the copy is taken from the original
on-disk file before the transformed buffer is written to the original path,
which afterwards holds the transformed buffer. -/
theorem claim_C1 (fs : FS) (orig : List Char) (h : fs projectPath = some orig) :
    ∃ fs1, runScript fs = some fs1 ∧ fs1 backupPath = some orig ∧
      fs1 projectPath = some (transform orig) := by
  refine ⟨writeFS (writeFS fs backupPath orig) projectPath (transform orig), ?_, ?_, ?_⟩
  · simp only [runScript, copyFS, h]
  · unfold writeFS
    rw [if_neg backup_ne_project, if_pos rfl]
  · unfold writeFS
    rw [if_pos rfl]

/-- Witness for C1: a concrete filesystem holding the project file. -/
theorem claim_C1_witness :
    ∃ fs1, runScript fsExample = some fs1 ∧ fs1 backupPath = some ('a' :: 'b' :: []) ∧
      fs1 projectPath = some (transform ('a' :: 'b' :: [])) :=
  claim_C1 fsExample ('a' :: 'b' :: []) (by decide)

/-- C10: the backup step unconditionally overwrites any existing file at the
backup path: after a second run of the script, the backup holds the first
run's transformed output, not the original pre-first-run content. -/
theorem claim_C10 (fs : FS) (orig : List Char) (h : fs projectPath = some orig) :
    ∃ fs1 fs2, runScript fs = some fs1 ∧ runScript fs1 = some fs2 ∧
      fs1 backupPath = some orig ∧ fs2 backupPath = some (transform orig) ∧
      fs2 projectPath = some (transform (transform orig)) := by
  have h1 : (writeFS (writeFS fs backupPath orig) projectPath (transform orig))
      projectPath = some (transform orig) := by
    unfold writeFS
    rw [if_pos rfl]
  refine ⟨writeFS (writeFS fs backupPath orig) projectPath (transform orig),
    writeFS (writeFS (writeFS (writeFS fs backupPath orig) projectPath (transform orig))
      backupPath (transform orig)) projectPath (transform (transform orig)),
    ?_, ?_, ?_, ?_, ?_⟩
  · simp only [runScript, copyFS, h]
  · simp only [runScript, copyFS, h1]
  · unfold writeFS
    rw [if_neg backup_ne_project, if_pos rfl]
  · unfold writeFS
    rw [if_neg backup_ne_project, if_pos rfl]
  · unfold writeFS
    rw [if_pos rfl]

/-- Witness for C10: two consecutive runs on a concrete filesystem. -/
theorem claim_C10_witness :
    ∃ fs1 fs2, runScript fsExample = some fs1 ∧ runScript fs1 = some fs2 ∧
      fs1 backupPath = some ('a' :: 'b' :: []) ∧
      fs2 backupPath = some (transform ('a' :: 'b' :: [])) ∧
      fs2 projectPath = some (transform (transform ('a' :: 'b' :: []))) :=
  claim_C10 fsExample ('a' :: 'b' :: []) (by decide)

/-- C5: on a text containing no begin-marker-to-end-marker span, the section
replacement is skipped non-fatally and the output is the input with exactly
the two line-removal substitutions applied. -/
theorem claim_C5 (s : List Char)
    (h : ∀ i, i < s.length → ∀ j, j < s.length →
      ¬(occursAt beginL s i = true ∧ i + beginL.length ≤ j ∧ occursAt endL s j = true)) :
    transform s = reSub2F (reSub1F s) := by
  unfold transform
  rw [sectionStep_none (findSection_none_of_no_pair s h)]

/-- Witness for C5: a concrete text without the markers. -/
theorem claim_C5_witness :
    transform ("hello\nworld\n".toList) = reSub2F (reSub1F ("hello\nworld\n".toList)) :=
  claim_C5 ("hello\nworld\n".toList) (by decide)

/-- C2: a text containing a unique begin-to-end marker span (first begin
marker, first end marker after it, span text occurring once) has that span
replaced with exactly the two-marker stub, everything else unchanged by the
section step. -/
theorem claim_C2 (pre mid suf : List Char)
    (hB : ∀ i, i < pre.length →
      occursAt beginL (pre ++ (beginL ++ (mid ++ (endL ++ suf)))) i = false)
    (hE : ∀ j, j < mid.length → occursAt endL (mid ++ (endL ++ suf)) j = false)
    (hUniq : ∀ i, i < (pre ++ (beginL ++ (mid ++ (endL ++ suf)))).length →
      occursAt (beginL ++ mid ++ endL) (pre ++ (beginL ++ (mid ++ (endL ++ suf)))) i = true →
      i = pre.length) :
    sectionStep (pre ++ (beginL ++ (mid ++ (endL ++ suf)))) = pre ++ (stubL ++ suf) :=
  sectionStep_unique pre mid suf hB hE hUniq

/-- Witness for C2: the specification's example one-entry section becomes
exactly the stub, under the section step and under the whole transformation. -/
theorem claim_C2_witness :
    sectionStep specC2Input = stubL ∧ transform specC2Input = stubL := by
  constructor
  · have h := claim_C2 [] specC2Mid [] (by decide) (by decide) (by decide)
    have he : specC2Input = [] ++ (beginL ++ (specC2Mid ++ (endL ++ []))) := by decide
    rw [he, h]
    decide
  · decide

/-- C6 counterexample: a text with exactly one section block whose body is
the non-empty `"\n"` transforms to the stub, which is two characters longer
than the input — the length does not strictly decrease. -/
theorem claim_C6_cex :
    transform c6cex = stubL ∧ c6cex.length < (transform c6cex).length := by decide

/-- C6 (amended): for a text with exactly one section block, the transformed
output is strictly shorter than the input whenever the block's body is longer
than the three characters the stub inserts between the markers. -/
theorem claim_C6 (pre mid suf : List Char)
    (hB : ∀ i, i < pre.length →
      occursAt beginL (pre ++ (beginL ++ (mid ++ (endL ++ suf)))) i = false)
    (hE : ∀ j, j < mid.length → occursAt endL (mid ++ (endL ++ suf)) j = false)
    (hUniq : ∀ i, i < (pre ++ (beginL ++ (mid ++ (endL ++ suf)))).length →
      occursAt (beginL ++ mid ++ endL) (pre ++ (beginL ++ (mid ++ (endL ++ suf)))) i = true →
      i = pre.length)
    (hlen : 3 < mid.length) :
    (transform (pre ++ (beginL ++ (mid ++ (endL ++ suf))))).length <
      (pre ++ (beginL ++ (mid ++ (endL ++ suf)))).length := by
  have hsec := sectionStep_unique pre mid suf hB hE hUniq
  have l2 : (transform (pre ++ (beginL ++ (mid ++ (endL ++ suf))))).length ≤
      (sectionStep (pre ++ (beginL ++ (mid ++ (endL ++ suf))))).length := by
    unfold transform reSub2F reSub1F
    calc (scanSubF tryMatch2 []
        (scanSubF tryMatch1 [] (sectionStep (pre ++ (beginL ++ (mid ++ (endL ++ suf))))))).length
        ≤ (scanSubF tryMatch1 [] (sectionStep (pre ++ (beginL ++ (mid ++ (endL ++ suf)))))).length :=
          scanSubF_length _ _
      _ ≤ _ := scanSubF_length _ _
  rw [hsec] at l2
  have hstub : stubL.length = 89 := by decide
  have hb : beginL.length = 44 := by decide
  have he : endL.length = 42 := by decide
  have e1 : (pre ++ (stubL ++ suf)).length = pre.length + 89 + suf.length := by
    simp [hstub]
    omega
  have e2 : (pre ++ (beginL ++ (mid ++ (endL ++ suf)))).length =
      pre.length + 44 + mid.length + 42 + suf.length := by
    simp [hb, he]
    omega
  omega

/-- Witness for C6: a concrete one-section text with a six-character body. -/
theorem claim_C6_witness :
    (transform ([] ++ (beginL ++ (c6mid ++ (endL ++ []))))).length <
      ([] ++ (beginL ++ (c6mid ++ (endL ++ [])))).length :=
  claim_C6 [] c6mid [] (by decide) (by decide) (by decide) (by decide)

/-- C7 counterexample: when the text of the first matched span occurs twice,
`str.replace` also rewrites the second copy, so text outside the first
matched span is affected. -/
theorem claim_C7_cex :
    sectionStep (c7span ++ c7span) = stubL ++ stubL ∧ stubL ≠ c7span := by decide

/-- C7 (amended): the section step computes the first begin-to-end span
(non-anchored, dot-matches-newline, non-greedy) and replaces it together with
every later occurrence of the identical span text; the prefix before the
first span is unaffected. -/
theorem claim_C7 (pre mid suf : List Char)
    (hB : ∀ i, i < pre.length →
      occursAt beginL (pre ++ (beginL ++ (mid ++ (endL ++ suf)))) i = false)
    (hE : ∀ j, j < mid.length → occursAt endL (mid ++ (endL ++ suf)) j = false) :
    sectionStep (pre ++ (beginL ++ (mid ++ (endL ++ suf)))) =
      pre ++ (stubL ++ replaceAllF (beginL ++ mid ++ endL) stubL suf) :=
  sectionStep_clean pre mid suf hB hE

/-- Witness for C7: a span whose identical text occurs again in the suffix. -/
theorem claim_C7_witness :
    sectionStep ([] ++ (beginL ++ ((['x'] : List Char) ++ (endL ++ c7span)))) =
      [] ++ (stubL ++ replaceAllF (beginL ++ ['x'] ++ endL) stubL c7span) :=
  claim_C7 [] ['x'] c7span (by decide) (by decide)

/-- C8: applying the section step to its own output re-matches exactly the
stubbed section and yields the same stub, leaving the text unchanged. -/
theorem claim_C8 (s sec : List Char) (h : findSection s = some sec) :
    findSection (sectionStep s) = some stubL ∧
      sectionStep (sectionStep s) = sectionStep s := by
  obtain ⟨pre, w, hstep, hfs⟩ := sectionStep_parts h
  refine ⟨hfs, ?_⟩
  rw [sectionStep_some hfs]
  exact replaceAll_self stubL _ stubL_ne

/-- Witness for C8: a concrete one-entry section. -/
theorem claim_C8_witness :
    findSection (sectionStep c8ex) = some stubL ∧
      sectionStep (sectionStep c8ex) = sectionStep c8ex :=
  claim_C8 c8ex (beginL ++ ['y'] ++ endL) (by decide)

/-- C9 counterexample: the whole transformation is not idempotent — removing
the inner reference line of `c9cex` splices its surroundings into a new
occurrence of the line-30 pattern, which only a second application removes. -/
theorem claim_C9_cex : transform (transform c9cex) ≠ transform c9cex := by decide

/-- C9 (amended): the section-replacement step is idempotent as a function on
strings, but the whole transformation is not: a line-removal substitution can
splice surrounding text into a fresh occurrence of its own pattern. -/
theorem claim_C9 :
    (∀ s, sectionStep (sectionStep s) = sectionStep s) ∧
      transform (transform c9cex) ≠ transform c9cex :=
  ⟨sectionStep_sectionStep, by decide⟩

/-- C3 counterexample: a line beginning with the bare identifier
`33CC111E2044C6BF0003C045` (but without the four-tab indentation the line-33
pattern requires) survives the whole transformation unchanged. -/
theorem claim_C3_cex :
    transform c3cex = c3cex ∧ token24.isPrefixOf c3cex = true := by decide

/-- C3 (amended): the target-dependency substitution removes, up to and
including the newline, every segment consisting of four tabs, the identifier
`33CC111E2044C6BF0003C045`, and the newline-free rest of the line — provided
the text before it contains no match of the pattern; scanning continues on
the suffix. -/
theorem claim_C3 (pre m suf : List Char) (hm : ∀ c ∈ m, c ≠ '\n')
    (hpre : ∀ i, i < pre.length →
      tryMatch2 (List.drop i (pre ++ ((pat2pre ++ (m ++ ['\n'])) ++ suf))) = none) :
    reSub2F (pre ++ ((pat2pre ++ (m ++ ['\n'])) ++ suf)) = pre ++ reSub2F suf := by
  unfold reSub2F
  rw [scanSub_skip pre _ hpre]
  congr 1
  have hL : pat2pre ++ (m ++ ['\n']) ≠ [] := by
    intro hc
    have := congrArg List.length hc
    simp at this
  have hmatch : tryMatch2 ((pat2pre ++ (m ++ ['\n'])) ++ suf) =
      some (pat2pre ++ (m ++ ['\n'])).length := by
    have e : (pat2pre ++ (m ++ ['\n'])) ++ suf = pat2pre ++ (m ++ ('\n' :: suf)) := by
      simp [List.append_assoc]
    rw [e, tryMatch2_exact m suf hm]
    congr 1
    simp only [List.length_append, List.length_cons, List.length_nil]
    omega
  rw [scanSubF_match (pat2pre ++ (m ++ ['\n'])) suf hL hmatch]
  simp

/-- Witness for C3: a concrete dependency line after a match-free prefix. -/
theorem claim_C3_witness :
    reSub2F ("x\n".toList ++ ((pat2pre ++ (" q".toList ++ ['\n'])) ++ "z".toList)) =
      "x\n".toList ++ reSub2F ("z".toList) :=
  claim_C3 ("x\n".toList) (" q".toList) ("z".toList) (by decide) (by decide)

/-- C4 counterexample: a whitespace-indented hexadecimal reference line whose
indentation is two spaces rather than four tabs survives the whole
transformation unchanged. -/
theorem claim_C4_cex : transform c4cex = c4cex := by decide

/-- C4 (amended): the build-phase-reference substitution removes every line
consisting of four tab characters, a non-empty uppercase-hexadecimal
identifier, the comment ` /* PBXShellScriptBuildPhase */`, an optional
trailing comma, and the newline — provided the text before it contains no
match of the pattern; scanning continues on the suffix. -/
theorem claim_C4 (pre hex copt suf : List Char)
    (hne : hex ≠ []) (hall : ∀ c ∈ hex, isHexUp c = true)
    (hcopt : copt = [] ∨ copt = [','])
    (hpre : ∀ i, i < pre.length →
      tryMatch1 (List.drop i
        (pre ++ ((tabs4 ++ (hex ++ (lit1 ++ (copt ++ ['\n'])))) ++ suf))) = none) :
    reSub1F (pre ++ ((tabs4 ++ (hex ++ (lit1 ++ (copt ++ ['\n'])))) ++ suf)) =
      pre ++ reSub1F suf := by
  unfold reSub1F
  rw [scanSub_skip pre _ hpre]
  congr 1
  have ht4 : tabs4.length = 4 := by decide
  have hL : tabs4 ++ (hex ++ (lit1 ++ (copt ++ ['\n']))) ≠ [] := by
    intro hc
    have := congrArg List.length hc
    simp [ht4] at this
  have hmatch : tryMatch1 ((tabs4 ++ (hex ++ (lit1 ++ (copt ++ ['\n'])))) ++ suf) =
      some (tabs4 ++ (hex ++ (lit1 ++ (copt ++ ['\n'])))).length := by
    cases hcopt with
    | inl h0 =>
      subst h0
      have e : (tabs4 ++ (hex ++ (lit1 ++ (([] : List Char) ++ ['\n'])))) ++ suf =
          tabs4 ++ (hex ++ (lit1 ++ ('\n' :: suf))) := by
        simp [List.append_assoc]
      rw [e, tryMatch1_exact_nocomma hex suf hne hall]
      congr 1
      simp only [List.length_append, List.length_cons, List.length_nil, ht4]
      omega
    | inr h0 =>
      subst h0
      have e : (tabs4 ++ (hex ++ (lit1 ++ (([','] : List Char) ++ ['\n'])))) ++ suf =
          tabs4 ++ (hex ++ (lit1 ++ (',' :: '\n' :: suf))) := by
        simp [List.append_assoc]
      rw [e, tryMatch1_exact_comma hex suf hne hall]
      congr 1
      simp only [List.length_append, List.length_cons, List.length_nil, ht4]
      omega
  rw [scanSubF_match (tabs4 ++ (hex ++ (lit1 ++ (copt ++ ['\n'])))) suf hL hmatch]
  simp

/-- Witness for C4: a concrete comma-terminated reference line after a
match-free prefix. -/
theorem claim_C4_witness :
    reSub1F ("p\n".toList ++ ((tabs4 ++ ("AB12".toList ++ (lit1 ++ ([','] ++ ['\n'])))) ++ "s".toList)) =
      "p\n".toList ++ reSub1F ("s".toList) :=
  claim_C4 ("p\n".toList) ("AB12".toList) [','] ("s".toList)
    (by decide) (by decide) (Or.inr rfl) (by decide)

end FixProject
